import Mathlib

/-!
# Verification of the sigchain pipeline/memoization engine

Shallow embedding of the `sigchain` repository: the signal value data model,
the two processing blocks present in the sources (`MatchedFilter`,
`PulseStacker`), and the pipeline builder/executor with its fingerprint-keyed
global cache.  The concrete signal-processing blocks are translated from
`src/sigchain/blocks/*.py`; the core engine (`Pipeline`, `SignalData`
construction defaults, the cache) is absent from the sources (only its tests
and callers are present), so it is modelled from the specification, as flagged
in the relevant doc comments.
-/

set_option maxHeartbeats 1000000

namespace Sigchain

/-- A complex scalar: numpy arrays in the repository hold real or complex
numbers; we embed them as Gaussian integers (exact arithmetic), which keeps
conjugation visible where the source uses `np.conj`. -/
structure Cx where
  re : Int
  im : Int
deriving DecidableEq

def Cx.add (x y : Cx) : Cx := ⟨x.re + y.re, x.im + y.im⟩

def Cx.mul (x y : Cx) : Cx :=
  ⟨x.re * y.re - x.im * y.im, x.re * y.im + x.im * y.re⟩

/-- `np.conj` on a complex scalar. -/
def Cx.conj (x : Cx) : Cx := ⟨x.re, -x.im⟩

def Cx.zero : Cx := ⟨0, 0⟩

/-- Values stored in a `SignalData` metadata mapping (Python `dict` values
used by the sources: booleans, integers, strings, reference-pulse arrays,
shapes). -/
inductive MetaVal where
  | bool (b : Bool)
  | nat (n : Nat)
  | str (s : String)
  | arr (xs : List Cx)
  | shape (rows cols : Nat)
deriving DecidableEq

/-- A metadata mapping: string keys, Python-`dict` semantics
(insertion order kept, assignment to an existing key overwrites in place). -/
def Metadata := List (String × MetaVal)
deriving DecidableEq

/-- `metadata[key]` lookup (`key in metadata` is `(mlookup md key).isSome`). -/
def mlookup : Metadata → String → Option MetaVal
  | [], _ => none
  | (k, v) :: rest, key => if k = key then some v else mlookup rest key

/-- `metadata[key] = value` on a dict: overwrite if present, else append. -/
def minsert : Metadata → String → MetaVal → Metadata
  | [], key, v => [(key, v)]
  | (k, w) :: rest, key, v =>
      if k = key then (k, v) :: rest else (k, w) :: minsert rest key v

/-- A numpy array flowing through the pipeline: 1-dimensional or
2-dimensional (`ndim` is observable via `reshape` in `PulseStacker`). -/
inductive SigArray where
  | one (xs : List Cx)
  | two (rows : List (List Cx))
deriving DecidableEq

/-- Modelled from the spec: the Signal Value (`SignalData`, whose defining
module is not among the sources): a numeric array, a sample-rate scalar
(neutral default) and a metadata mapping (empty default).  Stages construct
new values; nothing mutates an existing one. -/
structure SignalData where
  data : SigArray
  sampleRate : Int := 1
  metadata : Metadata := []
deriving DecidableEq

/-! ## Blocks translated from `src/sigchain/blocks` -/

/-- Elementwise sum of two lists, the shorter one zero-padded (helper for
discrete convolution). -/
def addLists : List Cx → List Cx → List Cx
  | [], ys => ys
  | xs, [] => xs
  | x :: xs, y :: ys => Cx.add x y :: addLists xs ys

/-- Full discrete convolution of two sequences (length `la + lv - 1` for
nonempty inputs). -/
def conv : List Cx → List Cx → List Cx
  | [], _ => []
  | x :: xs, v => addLists (v.map (fun c => Cx.mul x c)) (Cx.zero :: conv xs v)

/-- `scipy.signal.correlate(a, v, mode='same')`: cross-correlation
(`convolve(a, conj(v[::-1]))`) with the centred slice of length `a.length`
taken from the full output. -/
def correlate_same (a v : List Cx) : List Cx :=
  ((conv a ((v.map Cx.conj).reverse)).drop ((v.length - 1) / 2)).take a.length

/-- `MatchedFilter.process` from `src/sigchain/blocks/matched_filter.py`:
requires `reference_pulse` in the metadata (raises
`ValueError("Reference pulse not found in metadata")` otherwise), conjugates
the reference, correlates every pulse row with it in `same` mode, and returns
a new `SignalData` whose metadata is a copy of the input metadata with
`range_compressed` and `matched_filter_applied` set. -/
def MatchedFilter.process (sd : SignalData) : Except String SignalData :=
  match mlookup sd.metadata "reference_pulse" with
  | none => .error "Reference pulse not found in metadata"
  | some mv =>
    match mv with
    | .arr reference_pulse =>
      let matched_filter := reference_pulse.map Cx.conj
      match sd.data with
      | .one _ => .error "not enough values to unpack"
      | .two rows =>
        let filtered := rows.map (fun row => correlate_same row matched_filter)
        let md :=
          minsert (minsert sd.metadata "range_compressed" (.bool true))
            "matched_filter_applied" (.bool true)
        .ok { data := .two filtered, sampleRate := sd.sampleRate, metadata := md }
    | _ => .error "reference pulse is not an array"

/-- `PulseStacker.process` from `src/sigchain/blocks/pulse_stacker.py`:
reshapes 1-D data to a single row, derives the (unused downstream) pulse
length from `reference_pulse`, else `samples_per_pulse`, else the row width,
and returns a new `SignalData` with the data passed through and the metadata
copied and extended with `pulse_stacked` and `shape_after_stacking`. -/
def PulseStacker.process (sd : SignalData) : Except String SignalData :=
  let rows :=
    match sd.data with
    | .one xs => [xs]
    | .two m => m
  let _pulse_length :=
    match mlookup sd.metadata "reference_pulse" with
    | some (.arr rp) => rp.length
    | _ =>
      match mlookup sd.metadata "samples_per_pulse" with
      | some (.nat n) => n
      | _ => (rows.headD []).length
  let md :=
    minsert (minsert sd.metadata "pulse_stacked" (.bool true))
      "shape_after_stacking" (.shape rows.length (rows.headD []).length)
  .ok { data := .two rows, sampleRate := sd.sampleRate, metadata := md }

/-! ## Store-passing views of the blocks

To state that a stage produces a *new* Signal Value and leaves the input and
every upstream value (including cached ones) untouched, we make object
identity explicit: a store is a list of `SignalData` objects and an object is
an index into it.  A block reads its input object, builds the output value
(copying the metadata, exactly as `process` above does), and *appends* it to
the store; the Python originals never write through `signal_data`, they only
call `metadata.copy()` and construct a fresh `SignalData`. -/

/-- `MatchedFilter.process` acting on an object store: reads the input at
index `i`, appends the freshly constructed output object. -/
def MatchedFilter.processS (st : List SignalData) (i : Nat) :
    Except String (List SignalData × Nat) :=
  match st.get? i with
  | none => .error "invalid object reference"
  | some sd =>
    match MatchedFilter.process sd with
    | .error e => .error e
    | .ok out => .ok (st ++ [out], st.length)

/-- `PulseStacker.process` acting on an object store. -/
def PulseStacker.processS (st : List SignalData) (i : Nat) :
    Except String (List SignalData × Nat) :=
  match st.get? i with
  | none => .error "invalid object reference"
  | some sd =>
    match PulseStacker.process sd with
    | .error e => .error e
    | .ok out => .ok (st ++ [out], st.length)

/-! ## The pipeline engine

Modelled from the spec: the module defining `Pipeline`, the fingerprint
engine and the global cache is not among the sources (only its tests,
examples and the processing blocks are), so the engine below follows the
specification's words: chain-style fingerprints rooted at the identity of
the input object, a process-wide fingerprint-to-value cache shared by all
instances, cartesian variant expansion with the first-declared dimension
varying slowest, and stage errors re-raised with the stage's name and
position. -/

/-- Modelled from the spec: canonical, order-independent encoding of a
stage's bound parameters (sorted key-value list), insertion into a sorted
list. -/
def insertParam (p : String × MetaVal) :
    List (String × MetaVal) → List (String × MetaVal)
  | [] => [p]
  | q :: rest => if p.1 ≤ q.1 then p :: q :: rest else q :: insertParam p rest

/-- Modelled from the spec: canonical parameter representation (insertion
sort by key), so equal parameter sets fingerprint identically regardless of
declaration order. -/
def canonParams : List (String × MetaVal) → List (String × MetaVal)
  | [] => []
  | p :: rest => insertParam p (canonParams rest)

/-- Modelled from the spec: a fingerprint is built chain-style — the root
key is the identity of the input object bound at run time, and every stage
extends the previous key with a stable identifier of the operation (its
name) and its canonicalised bound parameters. -/
inductive Fingerprint where
  | root (objId : Nat)
  | step (prev : Fingerprint) (opName : String) (params : List (String × MetaVal))
deriving DecidableEq

/-- Chain length of a fingerprint (root is depth 0). -/
def Fingerprint.depth : Fingerprint → Nat
  | .root _ => 0
  | .step f _ _ => f.depth + 1

/-- Modelled from the spec: one Stage Record — the operation (an opaque
callable from Signal Value to Signal Value, which may raise), its display
name and its bound parameter values. -/
structure Stage where
  name : String
  params : List (String × MetaVal)
  func : SignalData → Except String SignalData

/-- Extend a chain fingerprint by one stage. -/
def stepFp (fp : Fingerprint) (s : Stage) : Fingerprint :=
  .step fp s.name (canonParams s.params)

/-- The chain fingerprints of a stage sequence executed from `fp`. -/
def chainFps (fp : Fingerprint) : List Stage → List Fingerprint
  | [] => []
  | s :: rest => stepFp fp s :: chainFps (stepFp fp s) rest

/-- Modelled from the spec: the Global Cache, a process-wide mapping from
fingerprint to Signal Value shared by every pipeline instance. -/
def Cache := List (Fingerprint × SignalData)

/-- Cache lookup. -/
def cacheGet : Cache → Fingerprint → Option SignalData
  | [], _ => none
  | (f, w) :: rest, fp => if f = fp then some w else cacheGet rest fp

/-- Cache store (only ever called on a missing key). -/
def cachePut (c : Cache) (fp : Fingerprint) (w : SignalData) : Cache :=
  (fp, w) :: c

/-- Cache lookup guarded by the pipeline's cache-enabled flag. -/
def cacheGetE (en : Bool) (c : Cache) (fp : Fingerprint) : Option SignalData :=
  if en then cacheGet c fp else none

/-- Modelled from the spec: `Pipeline.clear_cache()` evicts all entries of
the process-wide cache. -/
def clearCache (_c : Cache) : Cache := []

/-- Modelled from the spec: the error taxonomy visible to `run()`'s caller —
MissingInput when no root is bound, OperationError carrying the failing
stage's name, position and the unmodified underlying message. -/
inductive PipeError where
  | missingInput
  | operationError (stageName : String) (pos : Nat) (msg : String)
deriving DecidableEq

/-- Output of executing one concrete stage sequence: the cache afterwards,
the fingerprints of the operations actually invoked (in order), and the
result. -/
structure ExecOut where
  cache : Cache
  log : List Fingerprint
  res : Except PipeError SignalData

/-- Modelled from the spec: linear execution of a concrete stage sequence.
For each stage the chain key is advanced; with caching enabled a hit reuses
the stored value without invoking the operation, a miss (or caching
disabled) invokes the operation — logging the invocation — and stores the
result under the fingerprint when caching is enabled.  An operation error is
re-raised as an `OperationError` with the stage's name and position,
aborting the remaining stages of this path. -/
def execStages (en : Bool) :
    List Stage → Fingerprint → SignalData → Nat → Cache → ExecOut
  | [], _, v, _, c => ⟨c, [], .ok v⟩
  | s :: rest, fp, v, pos, c =>
    match cacheGetE en c (stepFp fp s) with
    | some w => execStages en rest (stepFp fp s) w (pos + 1) c
    | none =>
      match s.func v with
      | .error e => ⟨c, [stepFp fp s], .error (.operationError s.name pos e)⟩
      | .ok w =>
        let c1 := if en then cachePut c (stepFp fp s) w else c
        let out := execStages en rest (stepFp fp s) w (pos + 1) c1
        ⟨out.cache, stepFp fp s :: out.log, out.res⟩

/-- Cache-free reference execution: the trace of invoked fingerprints and
the result of folding the operations over the input. -/
def foldTrace :
    List Stage → Fingerprint → SignalData → Nat →
      List Fingerprint × Except PipeError SignalData
  | [], _, v, _ => ([], .ok v)
  | s :: rest, fp, v, pos =>
    match s.func v with
    | .error e => ([stepFp fp s], .error (.operationError s.name pos e))
    | .ok w =>
      let out := foldTrace rest (stepFp fp s) w (pos + 1)
      (stepFp fp s :: out.1, out.2)

/-- A combination label component: the dimension's human-readable name for
the chosen value, or the raw value when no names were declared. -/
inductive Lbl where
  | nm (s : String)
  | value (v : MetaVal)
deriving DecidableEq

/-- Modelled from the spec: one `variants` declaration — a factory turning a
parameter value into a concrete operation, the ordered values, and optional
parallel display names (same length as the values when given). -/
structure VariantDim where
  factory : MetaVal → Stage
  values : List MetaVal
  names : Option (List String)

/-- Labels of one dimension: declared names when given, else raw values. -/
def dimLabels (d : VariantDim) : List Lbl :=
  match d.names with
  | some ns => ns.map Lbl.nm
  | none => d.values.map Lbl.value

/-- An item of the declared (pre-expansion) stage list: a concrete stage or
a variant placeholder. -/
inductive PItem where
  | stage (s : Stage)
  | variants (d : VariantDim)

/-- Modelled from the spec: cartesian variant expansion.  Each declared
variant placeholder is substituted, at its declaration point, by the
factory-instantiated operation for the chosen value; dimensions combine in
declaration order with the first-declared dimension varying slowest.  Each
combination carries the list of per-dimension labels. -/
def expandItems : List PItem → List (List Lbl × List Stage)
  | [] => [([], [])]
  | .stage s :: rest =>
    (expandItems rest).map (fun pr => (pr.1, s :: pr.2))
  | .variants d :: rest =>
    let tails := expandItems rest
    (d.values.zip (dimLabels d)).flatMap
      (fun vl => tails.map (fun pr => (vl.2 :: pr.1, d.factory vl.1 :: pr.2)))

/-- Output of executing all expanded combinations against the shared cache. -/
structure CombosOut where
  cache : Cache
  log : List Fingerprint
  results : List (List Lbl × Except PipeError SignalData)

/-- Modelled from the spec: execute every combination in cartesian traversal
order against the shared cache; a failure in one combination does not abort
the sibling combinations — each runs to completion or failure independently
and its outcome is collected. -/
def execCombos (en : Bool) :
    List (List Lbl × List Stage) → Fingerprint → SignalData → Cache → CombosOut
  | [], _, _, c => ⟨c, [], []⟩
  | (lbl, ss) :: rest, fp, v, c =>
    let o1 := execStages en ss fp v 0 c
    let o2 := execCombos en rest fp v o1.cache
    ⟨o2.cache, o1.log ++ o2.log, (lbl, o1.res) :: o2.results⟩

/-- Modelled from the spec: a pipeline — a name, a cache-enabled flag, the
declared item list, and an optionally bound root input.  The root input, at
run time, is a pair of the input object's identity and its value: root
fingerprints key on object identity by documented contract. -/
structure Pipeline where
  name : String := "Pipeline"
  enableCache : Bool := true
  items : List PItem := []
  inputData : Option (Nat × SignalData) := none

instance : Inhabited Pipeline := ⟨{}⟩

/-- Whether any variant dimension was declared. -/
def Pipeline.hasVariants (p : Pipeline) : Bool :=
  p.items.any (fun it => match it with | .variants _ => true | .stage _ => false)

/-- The concrete stages of a variant-free pipeline (variant placeholders,
absent by assumption, are skipped). -/
def concreteStages (items : List PItem) : List Stage :=
  items.filterMap (fun it => match it with | .stage s => some s | .variants _ => none)

/-- What `run()` hands back: one Signal Value for a linear pipeline, an
ordered list of (combination label, result) pairs when variants were
declared. -/
inductive RunRet where
  | single (r : Except PipeError SignalData)
  | multi (rs : List (List Lbl × Except PipeError SignalData))

/-- A full run: the cache afterwards, the invocation log, the returned
value(s). -/
structure PipeRun where
  cache : Cache
  log : List Fingerprint
  ret : RunRet

/-- Whether a single result is a success. -/
def isOkE : Except PipeError SignalData → Bool
  | .ok _ => true
  | .error _ => false

/-- Whether every result a run returned is a success. -/
def PipeRun.allOk (r : PipeRun) : Bool :=
  match r.ret with
  | .single res => isOkE res
  | .multi rs => rs.all (fun pr => isOkE pr.2)

/-- Modelled from the spec: `run` after root resolution — expansion and
cartesian execution when variants were declared, plain linear execution
otherwise. -/
def Pipeline.runResolved (p : Pipeline) (input : Nat × SignalData) (c : Cache) :
    PipeRun :=
  let rootFp := Fingerprint.root input.1
  if p.hasVariants then
    let o := execCombos p.enableCache (expandItems p.items) rootFp input.2 c
    ⟨o.cache, o.log, .multi o.results⟩
  else
    let o := execStages p.enableCache (concreteStages p.items) rootFp input.2 0 c
    ⟨o.cache, o.log, .single o.res⟩

/-- Modelled from the spec: `run(root)` resolves the root input — the
explicit argument when given, else the bound input, else a MissingInput
error. -/
def Pipeline.run (p : Pipeline) (root : Option (Nat × SignalData)) (c : Cache) :
    PipeRun :=
  match root with
  | some input => p.runResolved input c
  | none =>
    match p.inputData with
    | some input => p.runResolved input c
    | none => ⟨c, [], .single (.error .missingInput)⟩

/-! ### Chain operations (the fluent builder API) -/

/-- Modelled from the spec: `add(operation, name)` appends a Stage Record. -/
def Pipeline.add (p : Pipeline) (s : Stage) : Pipeline :=
  { p with items := p.items ++ [.stage s] }

/-- Modelled from the spec: `map` is a pure alias of `add`. -/
def Pipeline.mapOp (p : Pipeline) (s : Stage) : Pipeline := p.add s

/-- Modelled from the spec: a tap stage invokes the inspector on the current
Signal Value purely for its side effect and passes the very same value
downstream; the side effect has no pure content, so the stage's operation is
the identity (it never fails). -/
def tapStage (name : String) : Stage :=
  ⟨name, [], fun v => .ok v⟩

/-- Modelled from the spec: `tap(inspector_fn)` appends a tap stage. -/
def Pipeline.tap (p : Pipeline) (name : String) : Pipeline :=
  p.add (tapStage name)

/-- Modelled from the spec: `transform(array_fn)` appends a stage that
unwraps the array, applies `array_fn`, and rewraps with the original
metadata copied. -/
def Pipeline.transform (p : Pipeline) (name : String) (arrFn : SigArray → SigArray) :
    Pipeline :=
  p.add ⟨name, [], fun v => .ok ⟨arrFn v.data, v.sampleRate, v.metadata⟩⟩

/-- Modelled from the spec: `input_data(value)` binds the root input. -/
def Pipeline.setInput (p : Pipeline) (input : Nat × SignalData) : Pipeline :=
  { p with inputData := some input }

/-- Modelled from the spec: `variants(factory, values, names)` records one
exploration dimension; nothing executes until `run`. -/
def Pipeline.addVariants (p : Pipeline) (d : VariantDim) : Pipeline :=
  { p with items := p.items ++ [.variants d] }

/-- A variant-free pipeline over the given stages (test helper shape). -/
def mkLinear (stages : List Stage) (en : Bool) : Pipeline :=
  { name := "Pipeline", enableCache := en, items := stages.map .stage,
    inputData := none }

/-- The `MatchedFilter` block (from the sources) wrapped as a stage: the
block's constructor binds no parameters beyond an optional display name. -/
def mfStage (name : String) : Stage :=
  ⟨name, [], MatchedFilter.process⟩

/-! ### Reference-returning view of the builder

Python chain calls mutate the pipeline object in place and return the very
same instance.  To state that, pipelines get explicit identity: a store of
pipeline objects and methods that update the object at a reference and
return the reference. -/

/-- Apply a functional update to the pipeline object at reference `r` and
return the reference the method was invoked on (Python `return self`). -/
def chainCall (f : Pipeline → Pipeline) (st : List Pipeline) (r : Nat) :
    List Pipeline × Nat :=
  (st.set r (f (st.getD r default)), r)

/-- `add` on a pipeline reference. -/
def addM (st : List Pipeline) (r : Nat) (s : Stage) : List Pipeline × Nat :=
  chainCall (fun p => p.add s) st r

/-- `map` on a pipeline reference. -/
def mapM (st : List Pipeline) (r : Nat) (s : Stage) : List Pipeline × Nat :=
  chainCall (fun p => p.mapOp s) st r

/-- `tap` on a pipeline reference. -/
def tapM (st : List Pipeline) (r : Nat) (name : String) : List Pipeline × Nat :=
  chainCall (fun p => p.tap name) st r

/-- `transform` on a pipeline reference. -/
def transformM (st : List Pipeline) (r : Nat) (name : String)
    (arrFn : SigArray → SigArray) : List Pipeline × Nat :=
  chainCall (fun p => p.transform name arrFn) st r

/-- `input_data` on a pipeline reference. -/
def inputDataM (st : List Pipeline) (r : Nat) (input : Nat × SignalData) :
    List Pipeline × Nat :=
  chainCall (fun p => p.setInput input) st r

/-- `variants` on a pipeline reference. -/
def variantsM (st : List Pipeline) (r : Nat) (d : VariantDim) :
    List Pipeline × Nat :=
  chainCall (fun p => p.addVariants d) st r

/-- `run` on a pipeline reference: it returns run results, not the pipeline
reference — the store is left untouched. -/
def runM (st : List Pipeline) (r : Nat) (root : Option (Nat × SignalData))
    (c : Cache) : List Pipeline × PipeRun :=
  (st, (st.getD r default).run root c)

/-! ## Basic lemmas about the cache and fingerprints -/

theorem cacheGet_nil (g : Fingerprint) : cacheGet [] g = none := rfl

theorem cacheGet_put (c : Cache) (fp g : Fingerprint) (w : SignalData) :
    cacheGet (cachePut c fp w) g = if fp = g then some w else cacheGet c g := rfl

theorem cacheGetE_true (c : Cache) (fp : Fingerprint) :
    cacheGetE true c fp = cacheGet c fp := rfl

theorem cacheGetE_false (c : Cache) (fp : Fingerprint) :
    cacheGetE false c fp = none := rfl

theorem depth_stepFp (fp : Fingerprint) (s : Stage) :
    (stepFp fp s).depth = fp.depth + 1 := rfl

theorem depth_lt_of_mem_chainFps {fp : Fingerprint} {ss : List Stage}
    {g : Fingerprint} (h : g ∈ chainFps fp ss) : fp.depth < g.depth := by
  induction ss generalizing fp with
  | nil => simp [chainFps] at h
  | cons s rest ih =>
    simp only [chainFps, List.mem_cons] at h
    rcases h with h | h
    · subst h; simp [depth_stepFp]
    · have h1 := ih h
      rw [depth_stepFp] at h1
      omega

theorem ne_of_mem_chainFps {fp : Fingerprint} {ss : List Stage}
    {g : Fingerprint} (h : g ∈ chainFps fp ss) : g ≠ fp := by
  intro he
  have := depth_lt_of_mem_chainFps h
  rw [he] at this
  omega

theorem chainFps_nodup (fp : Fingerprint) (ss : List Stage) :
    (chainFps fp ss).Nodup := by
  induction ss generalizing fp with
  | nil => simp [chainFps]
  | cons s rest ih =>
    simp only [chainFps]
    refine List.Nodup.cons ?_ (ih (stepFp fp s))
    intro hmem
    exact (ne_of_mem_chainFps hmem) rfl

/-- The chain key after executing a stage sequence. -/
def lastFp (fp : Fingerprint) : List Stage → Fingerprint
  | [] => fp
  | s :: rest => lastFp (stepFp fp s) rest

theorem chainFps_append (fp : Fingerprint) (a b : List Stage) :
    chainFps fp (a ++ b) = chainFps fp a ++ chainFps (lastFp fp a) b := by
  induction a generalizing fp with
  | nil => simp [chainFps, lastFp]
  | cons s rest ih => simp [chainFps, lastFp, ih]

/-! ## Unfolding lemmas for the executor -/

theorem execStages_nil (en : Bool) (fp : Fingerprint) (v : SignalData)
    (pos : Nat) (c : Cache) : execStages en [] fp v pos c = ⟨c, [], .ok v⟩ := rfl

theorem execStages_cons_hit {en : Bool} {s : Stage} {rest : List Stage}
    {fp : Fingerprint} {v w : SignalData} {pos : Nat} {c : Cache}
    (h : cacheGetE en c (stepFp fp s) = some w) :
    execStages en (s :: rest) fp v pos c
      = execStages en rest (stepFp fp s) w (pos + 1) c := by
  simp [execStages, h]

theorem execStages_cons_miss_err {en : Bool} {s : Stage} {rest : List Stage}
    {fp : Fingerprint} {v : SignalData} {pos : Nat} {c : Cache} {e : String}
    (h : cacheGetE en c (stepFp fp s) = none) (hf : s.func v = .error e) :
    execStages en (s :: rest) fp v pos c
      = ⟨c, [stepFp fp s], .error (.operationError s.name pos e)⟩ := by
  simp [execStages, h, hf]

theorem execStages_cons_miss_ok {en : Bool} {s : Stage} {rest : List Stage}
    {fp : Fingerprint} {v w : SignalData} {pos : Nat} {c : Cache}
    (h : cacheGetE en c (stepFp fp s) = none) (hf : s.func v = .ok w) :
    execStages en (s :: rest) fp v pos c
      = ⟨(execStages en rest (stepFp fp s) w (pos + 1)
            (if en then cachePut c (stepFp fp s) w else c)).cache,
         stepFp fp s ::
           (execStages en rest (stepFp fp s) w (pos + 1)
             (if en then cachePut c (stepFp fp s) w else c)).log,
         (execStages en rest (stepFp fp s) w (pos + 1)
           (if en then cachePut c (stepFp fp s) w else c)).res⟩ := by
  simp [execStages, h, hf]

/-! ## Invariants of linear execution -/

/-- Cache entries are never evicted or overwritten by execution. -/
theorem execStages_mono {en : Bool} {ss : List Stage} {fp : Fingerprint}
    {v : SignalData} {pos : Nat} {c : Cache} {g : Fingerprint} {w : SignalData}
    (h : cacheGet c g = some w) :
    cacheGet (execStages en ss fp v pos c).cache g = some w := by
  induction ss generalizing fp v pos c with
  | nil => simpa [execStages_nil] using h
  | cons s rest ih =>
    cases hc : cacheGetE en c (stepFp fp s) with
    | some u => rw [execStages_cons_hit hc]; exact ih h
    | none =>
      cases hf : s.func v with
      | error e => rw [execStages_cons_miss_err hc hf]; exact h
      | ok u =>
        rw [execStages_cons_miss_ok hc hf]
        apply ih
        cases en with
        | false => simpa using h
        | true =>
          rw [cacheGetE_true] at hc
          simp only [if_true, cacheGet_put]
          rw [if_neg, h]
          intro he
          rw [he, h] at hc
          exact Option.noConfusion hc

/-- With caching enabled, every fingerprint that gets logged (i.e. whose
operation is invoked) was absent from the cache the execution started from. -/
theorem execStages_log_fresh {ss : List Stage} {fp : Fingerprint}
    {v : SignalData} {pos : Nat} {c : Cache} {g : Fingerprint}
    (hg : g ∈ (execStages true ss fp v pos c).log) : cacheGet c g = none := by
  induction ss generalizing fp v pos c with
  | nil => simp [execStages_nil] at hg
  | cons s rest ih =>
    cases hc : cacheGetE true c (stepFp fp s) with
    | some u => rw [execStages_cons_hit hc] at hg; exact ih hg
    | none =>
      rw [cacheGetE_true] at hc
      cases hf : s.func v with
      | error e =>
        rw [execStages_cons_miss_err (by rwa [cacheGetE_true]) hf] at hg
        simp only [List.mem_singleton] at hg
        rwa [hg]
      | ok u =>
        rw [execStages_cons_miss_ok (by rwa [cacheGetE_true]) hf] at hg
        simp only [List.mem_cons, if_true] at hg
        rcases hg with hg | hg
        · rwa [hg]
        · have h1 := ih hg
          rw [cacheGet_put] at h1
          split at h1
          · exact Option.noConfusion h1
          · exact h1

/-- Every entry of the final cache was already present initially or had its
fingerprint logged during execution. -/
theorem execStages_dom_sub {en : Bool} {ss : List Stage} {fp : Fingerprint}
    {v : SignalData} {pos : Nat} {c : Cache} {g : Fingerprint}
    (hg : cacheGet (execStages en ss fp v pos c).cache g ≠ none) :
    cacheGet c g ≠ none ∨ g ∈ (execStages en ss fp v pos c).log := by
  induction ss generalizing fp v pos c with
  | nil => rw [execStages_nil] at hg ⊢; exact Or.inl hg
  | cons s rest ih =>
    cases hc : cacheGetE en c (stepFp fp s) with
    | some u => rw [execStages_cons_hit hc] at hg ⊢; exact ih hg
    | none =>
      cases hf : s.func v with
      | error e =>
        rw [execStages_cons_miss_err hc hf] at hg ⊢
        exact Or.inl hg
      | ok u =>
        rw [execStages_cons_miss_ok hc hf] at hg ⊢
        rcases ih hg with h1 | h1
        · cases en with
          | false => simp only [if_neg Bool.false_ne_true] at h1; exact Or.inl h1
          | true =>
            simp only [if_true, cacheGet_put] at h1
            by_cases he : stepFp fp s = g
            · exact Or.inr (by simp [he])
            · rw [if_neg he] at h1; exact Or.inl h1
        · exact Or.inr (List.mem_cons_of_mem _ h1)

/-- With caching enabled, after a successful execution every chain
fingerprint of the stage sequence is present in the cache (it was either hit
or computed and stored). -/
theorem execStages_ok_covered {ss : List Stage} {fp : Fingerprint}
    {v u : SignalData} {pos : Nat} {c : Cache}
    (hok : (execStages true ss fp v pos c).res = .ok u)
    {g : Fingerprint} (hg : g ∈ chainFps fp ss) :
    cacheGet (execStages true ss fp v pos c).cache g ≠ none := by
  induction ss generalizing fp v pos c with
  | nil => simp [chainFps] at hg
  | cons s rest ih =>
    simp only [chainFps, List.mem_cons] at hg
    cases hc : cacheGetE true c (stepFp fp s) with
    | some w =>
      rw [execStages_cons_hit hc] at hok ⊢
      rcases hg with hg | hg
      · subst hg
        rw [cacheGetE_true] at hc
        rw [execStages_mono hc]
        exact Option.noConfusion
      · exact ih hok hg
    | none =>
      cases hf : s.func v with
      | error e =>
        rw [execStages_cons_miss_err hc hf] at hok
        exact absurd hok (by intro h; exact Except.noConfusion h)
      | ok w =>
        rw [execStages_cons_miss_ok hc hf] at hok ⊢
        simp only [if_true] at hok ⊢
        rcases hg with hg | hg
        · subst hg
          have hput : cacheGet (cachePut c (stepFp fp s) w) (stepFp fp s) = some w := by
            rw [cacheGet_put, if_pos rfl]
          rw [execStages_mono hput]
          exact Option.noConfusion
        · exact ih hok hg

/-- With caching enabled and a successful execution, every logged
fingerprint ends up in the cache. -/
theorem execStages_logged_cached {ss : List Stage} {fp : Fingerprint}
    {v u : SignalData} {pos : Nat} {c : Cache}
    (hok : (execStages true ss fp v pos c).res = .ok u)
    {g : Fingerprint} (hg : g ∈ (execStages true ss fp v pos c).log) :
    cacheGet (execStages true ss fp v pos c).cache g ≠ none := by
  induction ss generalizing fp v pos c with
  | nil => simp [execStages_nil] at hg
  | cons s rest ih =>
    cases hc : cacheGetE true c (stepFp fp s) with
    | some w =>
      rw [execStages_cons_hit hc] at hok hg ⊢
      exact ih hok hg
    | none =>
      cases hf : s.func v with
      | error e =>
        rw [execStages_cons_miss_err hc hf] at hok
        exact absurd hok (by intro h; exact Except.noConfusion h)
      | ok w =>
        rw [execStages_cons_miss_ok hc hf] at hok hg ⊢
        simp only [if_true, List.mem_cons] at hok hg ⊢
        rcases hg with hg | hg
        · subst hg
          have hput : cacheGet (cachePut c (stepFp fp s) w) (stepFp fp s) = some w := by
            rw [cacheGet_put, if_pos rfl]
          rw [execStages_mono hput]
          exact Option.noConfusion
        · exact ih hok hg

/-- When every chain fingerprint is already cached, a run with caching
enabled invokes nothing and leaves the cache unchanged. -/
theorem execStages_allhit {ss : List Stage} {fp : Fingerprint}
    {v : SignalData} {pos : Nat} {c : Cache}
    (h : ∀ g ∈ chainFps fp ss, cacheGet c g ≠ none) :
    (execStages true ss fp v pos c).log = []
      ∧ (execStages true ss fp v pos c).cache = c := by
  induction ss generalizing fp v pos with
  | nil => rw [execStages_nil]; exact ⟨rfl, rfl⟩
  | cons s rest ih =>
    have hhead : cacheGet c (stepFp fp s) ≠ none :=
      h (stepFp fp s) (by simp [chainFps])
    cases hc : cacheGet c (stepFp fp s) with
    | none => exact absurd hc hhead
    | some w =>
      rw [execStages_cons_hit (by rwa [cacheGetE_true])]
      exact ih (fun g hg => h g (by simp [chainFps, hg]))

/-- The invocation log is a sublist of the chain fingerprints. -/
theorem execStages_log_sublist (en : Bool) (ss : List Stage) (fp : Fingerprint)
    (v : SignalData) (pos : Nat) (c : Cache) :
    (execStages en ss fp v pos c).log.Sublist (chainFps fp ss) := by
  induction ss generalizing fp v pos c with
  | nil => rw [execStages_nil]; simp [chainFps]
  | cons s rest ih =>
    cases hc : cacheGetE en c (stepFp fp s) with
    | some w =>
      rw [execStages_cons_hit hc]
      simp only [chainFps]
      exact List.Sublist.cons _ (ih _ _ _ _)
    | none =>
      cases hf : s.func v with
      | error e =>
        rw [execStages_cons_miss_err hc hf]
        simp only [chainFps]
        exact List.Sublist.cons₂ _ (List.nil_sublist _)
      | ok w =>
        rw [execStages_cons_miss_ok hc hf]
        simp only [chainFps]
        exact List.Sublist.cons₂ _ (ih _ _ _ _)

/-- The invocation log never repeats a fingerprint. -/
theorem execStages_log_nodup (en : Bool) (ss : List Stage) (fp : Fingerprint)
    (v : SignalData) (pos : Nat) (c : Cache) :
    (execStages en ss fp v pos c).log.Nodup :=
  (execStages_log_sublist en ss fp v pos c).nodup (chainFps_nodup fp ss)

/-- Execution from a cache containing none of the chain fingerprints (in
particular: caching disabled, or an empty cache) coincides with the pure
cache-free fold, in both the invocation trace and the result. -/
theorem execStages_eq_foldTrace {en : Bool} {ss : List Stage}
    {fp : Fingerprint} {v : SignalData} {pos : Nat} {c : Cache}
    (hfresh : en = true → ∀ g ∈ chainFps fp ss, cacheGet c g = none) :
    (execStages en ss fp v pos c).log = (foldTrace ss fp v pos).1
      ∧ (execStages en ss fp v pos c).res = (foldTrace ss fp v pos).2 := by
  induction ss generalizing fp v pos c with
  | nil => rw [execStages_nil]; exact ⟨rfl, rfl⟩
  | cons s rest ih =>
    have hmiss : cacheGetE en c (stepFp fp s) = none := by
      cases en with
      | false => rfl
      | true =>
        rw [cacheGetE_true]
        exact hfresh rfl (stepFp fp s) (by simp [chainFps])
    cases hf : s.func v with
    | error e =>
      rw [execStages_cons_miss_err hmiss hf]
      simp [foldTrace, hf]
    | ok w =>
      rw [execStages_cons_miss_ok hmiss hf]
      have hrest : en = true →
          ∀ g ∈ chainFps (stepFp fp s) rest,
            cacheGet (if en then cachePut c (stepFp fp s) w else c) g = none := by
        intro he g hg
        subst he
        simp only [if_true, cacheGet_put]
        rw [if_neg (fun hh => (ne_of_mem_chainFps hg) hh.symm)]
        exact hfresh rfl g (by simp [chainFps, hg])
      have hih := @ih (stepFp fp s) w (pos + 1)
        (if en then cachePut c (stepFp fp s) w else c) hrest
      simp only [foldTrace, hf]
      exact ⟨by rw [hih.1], by rw [hih.2]⟩

/-! ## Lemmas about the cache-free fold -/

/-- The success value of folding a stage sequence over an input (none on
failure); it depends neither on the chain key nor on the position counter. -/
def foldOk : List Stage → SignalData → Option SignalData
  | [], v => some v
  | s :: rest, v =>
    match s.func v with
    | .error _ => none
    | .ok w => foldOk rest w

theorem foldTrace_ok_iff {ss : List Stage} {fp : Fingerprint} {v u : SignalData}
    {pos : Nat} : (foldTrace ss fp v pos).2 = .ok u ↔ foldOk ss v = some u := by
  induction ss generalizing fp v pos with
  | nil =>
    simp only [foldTrace, foldOk]
    exact ⟨fun h => by rw [Except.ok.injEq] at h; rw [h],
           fun h => by rw [Option.some.injEq] at h; rw [h]⟩
  | cons s rest ih =>
    cases hf : s.func v with
    | error e =>
      simp only [foldTrace, foldOk, hf]
      exact ⟨fun h => Except.noConfusion h, fun h => Option.noConfusion h⟩
    | ok w => simp only [foldTrace, foldOk, hf]; exact ih

/-- A successful fold invokes exactly the full fingerprint chain. -/
theorem foldTrace_ok_log {ss : List Stage} {fp : Fingerprint} {v u : SignalData}
    {pos : Nat} (h : (foldTrace ss fp v pos).2 = .ok u) :
    (foldTrace ss fp v pos).1 = chainFps fp ss := by
  induction ss generalizing fp v pos with
  | nil => simp [foldTrace, chainFps]
  | cons s rest ih =>
    cases hf : s.func v with
    | error e =>
      rw [show (foldTrace (s :: rest) fp v pos).2
            = .error (.operationError s.name pos e) by simp [foldTrace, hf]] at h
      exact absurd h (by intro hh; exact Except.noConfusion hh)
    | ok w =>
      simp only [foldTrace, hf, chainFps] at h ⊢
      rw [ih h]

/-- Folding an appended sequence, when the first part succeeds, continues
from the first part's final value, chain key, and position. -/
theorem foldTrace_append {a : List Stage} {fp : Fingerprint} {v u : SignalData}
    {pos : Nat} (b : List Stage) (h : (foldTrace a fp v pos).2 = .ok u) :
    foldTrace (a ++ b) fp v pos
      = (chainFps fp a ++ (foldTrace b (lastFp fp a) u (pos + a.length)).1,
         (foldTrace b (lastFp fp a) u (pos + a.length)).2) := by
  induction a generalizing fp v pos with
  | nil =>
    simp only [foldTrace] at h
    rw [Except.ok.injEq] at h
    subst h
    simp [chainFps, lastFp]
  | cons s rest ih =>
    cases hf : s.func v with
    | error e =>
      rw [show (foldTrace (s :: rest) fp v pos).2
            = .error (.operationError s.name pos e) by simp [foldTrace, hf]] at h
      exact absurd h (by intro hh; exact Except.noConfusion hh)
    | ok w =>
      simp only [foldTrace, hf, chainFps, lastFp, List.cons_append,
        List.length_cons, List.append_eq] at h ⊢
      rw [show pos + (rest.length + 1) = pos + 1 + rest.length from by omega]
      have hih := ih h
      simp only [List.append_eq] at hih
      rw [hih]

/-- Removing a tap stage from anywhere in a sequence does not change the
success value of the fold. -/
theorem foldOk_tap_removal (pre post : List Stage) (nm : String)
    (v : SignalData) :
    foldOk (pre ++ tapStage nm :: post) v = foldOk (pre ++ post) v := by
  induction pre generalizing v with
  | nil => simp [foldOk, tapStage]
  | cons s rest ih =>
    cases hf : s.func v with
    | error e => simp [foldOk, hf]
    | ok w => simp only [List.cons_append, foldOk, hf]; exact ih w

/-! ## Invariants of cartesian execution -/

theorem execCombos_nil (en : Bool) (fp : Fingerprint) (v : SignalData)
    (c : Cache) : execCombos en [] fp v c = ⟨c, [], []⟩ := rfl

theorem execCombos_cons (en : Bool) (lbl : List Lbl) (ss : List Stage)
    (rest : List (List Lbl × List Stage)) (fp : Fingerprint) (v : SignalData)
    (c : Cache) :
    execCombos en ((lbl, ss) :: rest) fp v c
      = ⟨(execCombos en rest fp v (execStages en ss fp v 0 c).cache).cache,
         (execStages en ss fp v 0 c).log
           ++ (execCombos en rest fp v (execStages en ss fp v 0 c).cache).log,
         (lbl, (execStages en ss fp v 0 c).res)
           :: (execCombos en rest fp v (execStages en ss fp v 0 c).cache).results⟩ :=
  rfl

/-- The combination labels and their order survive execution untouched. -/
theorem execCombos_results_fst (en : Bool)
    (combos : List (List Lbl × List Stage)) (fp : Fingerprint) (v : SignalData)
    (c : Cache) :
    (execCombos en combos fp v c).results.map Prod.fst = combos.map Prod.fst := by
  induction combos generalizing c with
  | nil => rfl
  | cons pr rest ih =>
    cases pr with
    | mk lbl ss => rw [execCombos_cons]; simp only [List.map_cons]; rw [ih]

/-- Cache entries survive a cartesian execution. -/
theorem execCombos_mono {en : Bool} {combos : List (List Lbl × List Stage)}
    {fp : Fingerprint} {v : SignalData} {c : Cache} {g : Fingerprint}
    {w : SignalData} (h : cacheGet c g = some w) :
    cacheGet (execCombos en combos fp v c).cache g = some w := by
  induction combos generalizing c with
  | nil => simpa [execCombos_nil] using h
  | cons pr rest ih =>
    cases pr with
    | mk lbl ss => rw [execCombos_cons]; exact ih (execStages_mono h)

/-- With caching enabled, a fingerprint logged during a cartesian execution
was absent from the starting cache. -/
theorem execCombos_log_fresh {combos : List (List Lbl × List Stage)}
    {fp : Fingerprint} {v : SignalData} {c : Cache} {g : Fingerprint}
    (hg : g ∈ (execCombos true combos fp v c).log) : cacheGet c g = none := by
  induction combos generalizing c with
  | nil => simp [execCombos_nil] at hg
  | cons pr rest ih =>
    cases pr with
    | mk lbl ss =>
      rw [execCombos_cons] at hg
      simp only [List.mem_append] at hg
      rcases hg with hg | hg
      · exact execStages_log_fresh hg
      · have h1 := ih hg
        cases hc : cacheGet c g with
        | none => rfl
        | some w =>
          rw [execStages_mono hc] at h1
          exact Option.noConfusion h1

/-- Every entry of the cache after a cartesian execution was present
initially or was logged. -/
theorem execCombos_dom_sub {en : Bool} {combos : List (List Lbl × List Stage)}
    {fp : Fingerprint} {v : SignalData} {c : Cache} {g : Fingerprint}
    (hg : cacheGet (execCombos en combos fp v c).cache g ≠ none) :
    cacheGet c g ≠ none ∨ g ∈ (execCombos en combos fp v c).log := by
  induction combos generalizing c with
  | nil => rw [execCombos_nil] at hg ⊢; exact Or.inl hg
  | cons pr rest ih =>
    cases pr with
    | mk lbl ss =>
      rw [execCombos_cons] at hg ⊢
      simp only [List.mem_append]
      rcases ih hg with h1 | h1
      · rcases execStages_dom_sub h1 with h2 | h2
        · exact Or.inl h2
        · exact Or.inr (Or.inl h2)
      · exact Or.inr (Or.inr h1)

/-- With caching enabled and every combination succeeding, every chain
fingerprint of every combination is cached afterwards. -/
theorem execCombos_ok_covered {combos : List (List Lbl × List Stage)}
    {fp : Fingerprint} {v : SignalData} {c : Cache}
    (hok : ∀ pr ∈ (execCombos true combos fp v c).results, isOkE pr.2 = true) :
    ∀ pr ∈ combos, ∀ g ∈ chainFps fp pr.2,
      cacheGet (execCombos true combos fp v c).cache g ≠ none := by
  induction combos generalizing c with
  | nil => intro pr hpr; simp at hpr
  | cons hd rest ih =>
    cases hd with
    | mk lbl ss =>
      intro pr hpr g hg
      rw [execCombos_cons] at hok ⊢
      rw [List.forall_mem_cons] at hok
      simp only [List.mem_cons] at hpr
      rcases hpr with hpr | hpr
      · subst hpr
        have hres : ∃ u, (execStages true ss fp v 0 c).res = .ok u := by
          have h1 := hok.1
          cases hr : (execStages true ss fp v 0 c).res with
          | ok u => exact ⟨u, rfl⟩
          | error e => rw [hr] at h1; simp [isOkE] at h1
        obtain ⟨u, hu⟩ := hres
        have h2 := execStages_ok_covered hu hg
        cases hc2 : cacheGet (execStages true ss fp v 0 c).cache g with
        | none => exact absurd hc2 h2
        | some w =>
          rw [execCombos_mono hc2]
          exact Option.noConfusion
      · exact ih hok.2 pr hpr g hg

/-- With caching enabled, when every chain fingerprint of every combination
is already cached, a cartesian execution invokes nothing. -/
theorem execCombos_allhit {combos : List (List Lbl × List Stage)}
    {fp : Fingerprint} {v : SignalData} {c : Cache}
    (h : ∀ pr ∈ combos, ∀ g ∈ chainFps fp pr.2, cacheGet c g ≠ none) :
    (execCombos true combos fp v c).log = []
      ∧ (execCombos true combos fp v c).cache = c := by
  induction combos generalizing c with
  | nil => rw [execCombos_nil]; exact ⟨rfl, rfl⟩
  | cons hd rest ih =>
    cases hd with
    | mk lbl ss =>
      rw [execCombos_cons]
      have h1 := @execStages_allhit ss fp v 0 c
        (fun g hg => h (lbl, ss) (by simp) g hg)
      rw [h1.1, h1.2]
      have h2 := ih (fun pr hpr g hg => h pr (List.mem_cons_of_mem _ hpr) g hg)
      rw [h2.1, h2.2]
      exact ⟨rfl, rfl⟩

/-- With caching enabled and every combination succeeding, no operation is
invoked twice across the whole cartesian execution. -/
theorem execCombos_log_nodup {combos : List (List Lbl × List Stage)}
    {fp : Fingerprint} {v : SignalData} {c : Cache}
    (hok : ∀ pr ∈ (execCombos true combos fp v c).results, isOkE pr.2 = true) :
    (execCombos true combos fp v c).log.Nodup := by
  induction combos generalizing c with
  | nil => rw [execCombos_nil]; exact List.nodup_nil
  | cons hd rest ih =>
    cases hd with
    | mk lbl ss =>
      rw [execCombos_cons] at hok ⊢
      simp only [List.forall_mem_cons] at hok
      refine List.Nodup.append (execStages_log_nodup _ _ _ _ _ _) (ih hok.2) ?_
      intro g hg1 hg2
      have hres : ∃ u, (execStages true ss fp v 0 c).res = .ok u := by
        have h1 := hok.1
        cases hr : (execStages true ss fp v 0 c).res with
        | ok u => exact ⟨u, rfl⟩
        | error e => rw [hr] at h1; simp [isOkE] at h1
      obtain ⟨u, hu⟩ := hres
      have hcached := execStages_logged_cached hu hg1
      have hfresh := execCombos_log_fresh hg2
      exact hcached hfresh

/-! ## Run-level helper lemmas -/

theorem run_some (p : Pipeline) (input : Nat × SignalData) (c : Cache) :
    p.run (some input) c = p.runResolved input c := rfl

theorem runResolved_of_noVariants {p : Pipeline} (input : Nat × SignalData)
    (c : Cache) (h : p.hasVariants = false) :
    p.runResolved input c
      = ⟨(execStages p.enableCache (concreteStages p.items)
            (.root input.1) input.2 0 c).cache,
         (execStages p.enableCache (concreteStages p.items)
           (.root input.1) input.2 0 c).log,
         .single (execStages p.enableCache (concreteStages p.items)
           (.root input.1) input.2 0 c).res⟩ := by
  simp [Pipeline.runResolved, h]

theorem runResolved_of_variants {p : Pipeline} (input : Nat × SignalData)
    (c : Cache) (h : p.hasVariants = true) :
    p.runResolved input c
      = ⟨(execCombos p.enableCache (expandItems p.items)
            (.root input.1) input.2 c).cache,
         (execCombos p.enableCache (expandItems p.items)
           (.root input.1) input.2 c).log,
         .multi (execCombos p.enableCache (expandItems p.items)
           (.root input.1) input.2 c).results⟩ := by
  simp [Pipeline.runResolved, h]

theorem hasVariants_mkLinear (ss : List Stage) (en : Bool) :
    (mkLinear ss en).hasVariants = false := by
  induction ss with
  | nil => rfl
  | cons s rest ih =>
    simp only [mkLinear, Pipeline.hasVariants, List.map_cons, List.any_cons] at ih ⊢
    exact ih

theorem concreteStages_map_stage (ss : List Stage) :
    concreteStages (ss.map .stage) = ss := by
  induction ss with
  | nil => rfl
  | cons s rest ih =>
    simp only [concreteStages, List.map_cons, List.filterMap_cons] at ih ⊢
    rw [ih]

theorem run_mkLinear (ss : List Stage) (en : Bool) (input : Nat × SignalData)
    (c : Cache) :
    (mkLinear ss en).run (some input) c
      = ⟨(execStages en ss (.root input.1) input.2 0 c).cache,
         (execStages en ss (.root input.1) input.2 0 c).log,
         .single (execStages en ss (.root input.1) input.2 0 c).res⟩ := by
  rw [run_some, runResolved_of_noVariants input c (hasVariants_mkLinear ss en)]
  simp [mkLinear, concreteStages_map_stage]

/-- Concrete one-sample input value used by the evaluation witnesses. -/
def sig0 : SignalData := ⟨.one [⟨1, 0⟩], 1, []⟩

/-- Concrete pulse-matrix input carrying a reference pulse, used by the
evaluation witnesses. -/
def sigRef : SignalData :=
  ⟨.two [[⟨1, 0⟩]], 1, [("reference_pulse", .arr [⟨1, 0⟩])]⟩

/-! ## Claims -/

/-- C1: for every pipeline with caching enabled, running the same pipeline
object twice on the same input Signal Value object executes each operation
exactly once in total — the first run never invokes a fingerprint twice (and,
for a variant-free pipeline, invokes exactly the full stage chain), and the
second run is entirely cache hits, invoking nothing. -/
theorem claim_c1_second_run_all_hits (p : Pipeline) (oid : Nat) (v : SignalData)
    (hc : p.enableCache = true)
    (hok : (p.run (some (oid, v)) []).allOk = true) :
    (p.run (some (oid, v)) []).log.Nodup
      ∧ (p.run (some (oid, v)) ((p.run (some (oid, v)) []).cache)).log = []
      ∧ (p.hasVariants = false →
          (p.run (some (oid, v)) []).log
            = chainFps (.root oid) (concreteStages p.items)) := by
  cases hv : p.hasVariants with
  | true =>
    rw [run_some, runResolved_of_variants (oid, v) _ hv, hc] at hok ⊢
    rw [run_some, runResolved_of_variants (oid, v) _ hv, hc]
    simp only [PipeRun.allOk, List.all_eq_true] at hok
    refine ⟨execCombos_log_nodup hok, ?_, ?_⟩
    · have hcov := execCombos_ok_covered hok
      exact (execCombos_allhit hcov).1
    · intro hfalse; exact Bool.noConfusion hfalse
  | false =>
    rw [run_some, runResolved_of_noVariants (oid, v) _ hv, hc] at hok ⊢
    rw [run_some, runResolved_of_noVariants (oid, v) _ hv, hc]
    simp only [PipeRun.allOk] at hok
    have hres : ∃ u,
        (execStages true (concreteStages p.items) (.root oid) v 0 []).res
          = .ok u := by
      cases hr : (execStages true (concreteStages p.items) (.root oid) v 0 []).res with
      | ok u => exact ⟨u, rfl⟩
      | error e => rw [hr] at hok; simp [isOkE] at hok
    obtain ⟨u, hu⟩ := hres
    refine ⟨execStages_log_nodup _ _ _ _ _ _, ?_, ?_⟩
    · have hcov : ∀ g ∈ chainFps (Fingerprint.root oid) (concreteStages p.items),
          cacheGet (execStages true (concreteStages p.items)
            (Fingerprint.root oid) v 0 []).cache g ≠ none :=
        fun g hg => execStages_ok_covered hu hg
      exact (execStages_allhit hcov).1
    · intro _
      have heq := @execStages_eq_foldTrace true (concreteStages p.items)
        (Fingerprint.root oid) v 0 [] (fun _ g _ => cacheGet_nil g)
      rw [heq.1]
      exact foldTrace_ok_log (by rw [← heq.2]; exact hu)

/-- Witness for C1 at a concrete pipeline and input. -/
theorem claim_c1_second_run_all_hits_witness :
    ((mkLinear [tapStage "a"] true).run (some (0, sig0)) []).allOk = true
      ∧ ((mkLinear [tapStage "a"] true).run (some (0, sig0)) []).log.Nodup
      ∧ ((mkLinear [tapStage "a"] true).run (some (0, sig0))
            (((mkLinear [tapStage "a"] true).run (some (0, sig0)) []).cache)).log = []
      ∧ ((mkLinear [tapStage "a"] true).hasVariants = false →
          ((mkLinear [tapStage "a"] true).run (some (0, sig0)) []).log
            = chainFps (.root 0) (concreteStages (mkLinear [tapStage "a"] true).items)) := by
  refine ⟨by decide, ?_⟩
  have h := claim_c1_second_run_all_hits (mkLinear [tapStage "a"] true) 0 sig0
    rfl (by decide)
  exact h

/-- C10: running a pipeline with zero declared stages returns a result whose
data array equals the input's data array — `run()` is the identity on empty
pipelines rather than an error. -/
theorem claim_c10_empty_pipeline_identity (en : Bool) (oid : Nat)
    (v : SignalData) (c : Cache) :
    ((mkLinear [] en).run (some (oid, v)) c).ret = .single (.ok v)
      ∧ (∀ w, ((mkLinear [] en).run (some (oid, v)) c).ret = .single (.ok w) →
          w.data = v.data) := by
  constructor
  · rw [run_mkLinear, execStages_nil]
  · intro w hw
    rw [run_mkLinear, execStages_nil] at hw
    simp only [RunRet.single.injEq, Except.ok.injEq] at hw
    rw [hw]

/-- Witness for C10 at a concrete input (the second conjunct has a
hypothesis). -/
theorem claim_c10_empty_pipeline_identity_witness :
    ((mkLinear [] true).run (some (0, sig0)) []).ret = .single (.ok sig0)
      ∧ (((mkLinear [] true).run (some (0, sig0)) []).ret
            = .single (.ok sig0) → sig0.data = sig0.data) :=
  ⟨(claim_c10_empty_pipeline_identity true 0 sig0 []).1,
   fun h => (claim_c10_empty_pipeline_identity true 0 sig0 []).2 sig0 h⟩

/-- C7: `run()` with no root argument and no bound input fails with
MissingInput; an explicit root argument is used when given, else the bound
input is used. -/
theorem claim_c7_missing_input (p : Pipeline) (c : Cache) :
    (p.inputData = none →
        p.run none c = ⟨c, [], .single (.error .missingInput)⟩)
      ∧ (∀ input, p.run (some input) c = p.runResolved input c)
      ∧ (∀ input, p.inputData = some input →
          p.run none c = p.runResolved input c) := by
  refine ⟨?_, fun input => rfl, ?_⟩
  · intro h; simp [Pipeline.run, h]
  · intro input h; simp [Pipeline.run, h]

/-- Witness for C7: a pipeline with no bound input errors, one with a bound
input resolves it. -/
theorem claim_c7_missing_input_witness :
    (mkLinear [] true).run none []
        = ⟨[], [], .single (.error .missingInput)⟩
      ∧ ((mkLinear [] true).setInput (0, sig0)).run none []
          = ((mkLinear [] true).setInput (0, sig0)).runResolved (0, sig0) [] :=
  ⟨(claim_c7_missing_input (mkLinear [] true) []).1 rfl,
   (claim_c7_missing_input ((mkLinear [] true).setInput (0, sig0)) []).2.2
     (0, sig0) rfl⟩

/-- A variant-free item list expands to the single combination consisting of
its concrete stages with the empty label. -/
theorem expandItems_of_noVariants {items : List PItem}
    (h : (items.any fun it =>
        match it with | .variants _ => true | .stage _ => false) = false) :
    expandItems items = [([], concreteStages items)] := by
  induction items with
  | nil => rfl
  | cons it rest ih =>
    cases it with
    | stage s =>
      simp only [List.any_cons, Bool.or_eq_false_iff] at h
      simp only [expandItems, concreteStages, List.filterMap_cons]
      rw [ih h.2]
      rfl
    | variants d => simp at h

/-- C4: after `clear_cache()`, the next run of every pipeline re-executes
every stage at least once, even with caching enabled — every chain
fingerprint of every expanded combination appears in the invocation log, so
no fingerprint computed after the clear hits a pre-clear entry. -/
theorem claim_c4_clear_forces_reexecution (p : Pipeline) (oid : Nat)
    (v : SignalData) (c : Cache) (hc : p.enableCache = true)
    (hok : (p.run (some (oid, v)) (clearCache c)).allOk = true) :
    ∀ pr ∈ expandItems p.items, ∀ g ∈ chainFps (.root oid) pr.2,
      g ∈ (p.run (some (oid, v)) (clearCache c)).log := by
  intro pr hpr g hg
  cases hv : p.hasVariants with
  | true =>
    rw [run_some, runResolved_of_variants (oid, v) _ hv, hc] at hok ⊢
    simp only [PipeRun.allOk, List.all_eq_true] at hok
    have hcov := execCombos_ok_covered hok pr hpr g hg
    rcases execCombos_dom_sub hcov with h1 | h1
    · exact absurd (cacheGet_nil g) h1
    · exact h1
  | false =>
    rw [run_some, runResolved_of_noVariants (oid, v) _ hv, hc] at hok ⊢
    simp only [PipeRun.allOk] at hok
    rw [expandItems_of_noVariants hv] at hpr
    simp only [List.mem_singleton] at hpr
    subst hpr
    have hres : ∃ u,
        (execStages true (concreteStages p.items) (.root oid) v 0
          (clearCache c)).res = .ok u := by
      cases hr : (execStages true (concreteStages p.items) (.root oid) v 0
          (clearCache c)).res with
      | ok u => exact ⟨u, rfl⟩
      | error e => rw [hr] at hok; simp [isOkE] at hok
    obtain ⟨u, hu⟩ := hres
    have hcov := execStages_ok_covered hu hg
    rcases execStages_dom_sub hcov with h1 | h1
    · exact absurd (cacheGet_nil g) h1
    · exact h1

/-- Witness for C4 at a concrete pipeline, input and fingerprint. -/
theorem claim_c4_clear_forces_reexecution_witness :
    ((mkLinear [tapStage "a"] true).run (some (0, sig0))
        (clearCache [])).allOk = true
      ∧ stepFp (.root 0) (tapStage "a")
          ∈ ((mkLinear [tapStage "a"] true).run (some (0, sig0))
              (clearCache [])).log :=
  ⟨by decide,
   claim_c4_clear_forces_reexecution (mkLinear [tapStage "a"] true) 0 sig0 []
     rfl (by decide) ([], [tapStage "a"]) (List.Mem.head _)
     (stepFp (.root 0) (tapStage "a")) (List.Mem.head _)⟩

/-- C2: two cache-enabled pipeline instances sharing an identical prefix of
stages, run on the same input object, execute each shared-prefix operation
exactly once across both instances combined: the first run invokes every
prefix fingerprint exactly once and the second run invokes none of them,
because the recomputed fingerprints coincide and the Global Cache is shared
between instances. -/
theorem claim_c2_shared_prefix_executes_once (pre s1 s2 : List Stage)
    (oid : Nat) (v : SignalData)
    (hok : ((mkLinear (pre ++ s1) true).run (some (oid, v)) []).allOk = true) :
    ∀ g ∈ chainFps (.root oid) pre,
      ((mkLinear (pre ++ s1) true).run (some (oid, v)) []).log.count g = 1
        ∧ g ∉ ((mkLinear (pre ++ s2) true).run (some (oid, v))
                (((mkLinear (pre ++ s1) true).run (some (oid, v)) []).cache)).log := by
  intro g hg
  rw [run_mkLinear] at hok ⊢
  simp only [PipeRun.allOk] at hok
  have hres : ∃ u,
      (execStages true (pre ++ s1) (.root oid) v 0 []).res = .ok u := by
    cases hr : (execStages true (pre ++ s1) (.root oid) v 0 []).res with
    | ok u => exact ⟨u, rfl⟩
    | error e => rw [hr] at hok; simp [isOkE] at hok
  obtain ⟨u, hu⟩ := hres
  have hgmem : g ∈ chainFps (.root oid) (pre ++ s1) := by
    rw [chainFps_append]
    exact List.mem_append_left _ hg
  have heq := @execStages_eq_foldTrace true (pre ++ s1) (.root oid) v 0 []
    (fun _ g _ => cacheGet_nil g)
  constructor
  · rw [heq.1, foldTrace_ok_log (by rw [← heq.2]; exact hu)]
    exact List.count_eq_one_of_mem (chainFps_nodup _ _) hgmem
  · intro habs
    rw [run_mkLinear] at habs
    have hfresh := execStages_log_fresh habs
    exact (execStages_ok_covered hu hgmem) hfresh

/-- Witness for C2 at concrete pipelines sharing the one-stage prefix. -/
theorem claim_c2_shared_prefix_executes_once_witness :
    ((mkLinear ([tapStage "a"] ++ [tapStage "b"]) true).run
        (some (0, sig0)) []).allOk = true
      ∧ ((mkLinear ([tapStage "a"] ++ [tapStage "b"]) true).run
            (some (0, sig0)) []).log.count (stepFp (.root 0) (tapStage "a")) = 1
      ∧ stepFp (.root 0) (tapStage "a")
          ∉ ((mkLinear ([tapStage "a"] ++ [tapStage "c"]) true).run
              (some (0, sig0))
              (((mkLinear ([tapStage "a"] ++ [tapStage "b"]) true).run
                  (some (0, sig0)) []).cache)).log := by
  refine ⟨by decide, ?_⟩
  have h := claim_c2_shared_prefix_executes_once [tapStage "a"] [tapStage "b"]
    [tapStage "c"] 0 sig0 (by decide) (stepFp (.root 0) (tapStage "a"))
    (List.Mem.head _)
  exact h

/-- C5: a tap stage passes its input Signal Value downstream unchanged, so
inserting or removing a tap between two stages never changes the final
result of `run()`: the runs with and without the tap succeed with exactly
the same value. -/
theorem claim_c5_tap_transparent (pre post : List Stage) (nm : String)
    (en : Bool) (oid : Nat) (v w : SignalData) :
    (∀ u, (tapStage nm).func u = .ok u)
      ∧ (((mkLinear (pre ++ tapStage nm :: post) en).run (some (oid, v)) []).ret
            = .single (.ok w)
          ↔ ((mkLinear (pre ++ post) en).run (some (oid, v)) []).ret
            = .single (.ok w)) := by
  refine ⟨fun u => rfl, ?_⟩
  rw [run_mkLinear, run_mkLinear]
  have h1 := (@execStages_eq_foldTrace en (pre ++ tapStage nm :: post)
    (.root oid) v 0 [] (fun _ g _ => cacheGet_nil g)).2
  have h2 := (@execStages_eq_foldTrace en (pre ++ post)
    (.root oid) v 0 [] (fun _ g _ => cacheGet_nil g)).2
  simp only [RunRet.single.injEq]
  rw [h1, h2, foldTrace_ok_iff, foldTrace_ok_iff, foldOk_tap_removal]

/-- Witness for C5 at a concrete tap and input. -/
theorem claim_c5_tap_transparent_witness :
    (tapStage "t").func sig0 = .ok sig0
      ∧ (((mkLinear ([] ++ tapStage "t" :: []) true).run (some (0, sig0)) []).ret
            = .single (.ok sig0)
          ↔ ((mkLinear ([] ++ []) true).run (some (0, sig0)) []).ret
            = .single (.ok sig0)) :=
  ⟨(claim_c5_tap_transparent [] [] "t" true 0 sig0 sig0).1 sig0,
   (claim_c5_tap_transparent [] [] "t" true 0 sig0 sig0).2⟩

/-! ## Combinatorics of variant expansion -/

theorem map_snd_zip_len {α β : Type} (xs : List α) (ys : List β)
    (h : ys.length = xs.length) : (xs.zip ys).map Prod.snd = ys := by
  induction xs generalizing ys with
  | nil => cases ys with | nil => rfl | cons y ys => simp at h
  | cons x xs ih =>
    cases ys with
    | nil => simp at h
    | cons y ys =>
      simp only [List.zip_cons_cons, List.map_cons]
      rw [ih ys (by simpa using h)]

theorem flatMap_single {α β : Type} (l : List α) (g : α → β) :
    (l.flatMap fun x => [g x]) = l.map g := by
  induction l with
  | nil => rfl
  | cons x rest ih => simp only [List.flatMap_cons, List.map_cons] at ih ⊢; rw [ih]; rfl

theorem flatMap_zip_snd {α β γ : Type} (xs : List α) (ys : List β)
    (h : ys.length = xs.length) (F : β → List γ) :
    (xs.zip ys).flatMap (fun vl => F vl.2) = ys.flatMap F := by
  induction xs generalizing ys with
  | nil => cases ys with | nil => rfl | cons y ys => simp at h
  | cons x xs ih =>
    cases ys with
    | nil => simp at h
    | cons y ys =>
      simp only [List.zip_cons_cons, List.flatMap_cons]
      rw [ih ys (by simpa using h)]

/-- The declared variant dimensions of an item list, in declaration order. -/
def varDims (items : List PItem) : List VariantDim :=
  items.filterMap
    (fun it => match it with | .variants d => some d | .stage _ => none)

/-- The combination labels the expansion of an item list produces. -/
def itemLabels : List PItem → List (List Lbl)
  | [] => [[]]
  | .stage _ :: rest => itemLabels rest
  | .variants d :: rest =>
    (dimLabels d).flatMap (fun b => (itemLabels rest).map (fun ls => b :: ls))

/-- When every declared dimension has as many labels as values, the labels
of the expanded combinations are exactly `itemLabels` — the cartesian
product of the dimensions' labels in declaration order, first-declared
varying slowest. -/
theorem expandItems_map_fst (items : List PItem)
    (h : ∀ d ∈ varDims items, (dimLabels d).length = d.values.length) :
    (expandItems items).map Prod.fst = itemLabels items := by
  induction items with
  | nil => rfl
  | cons it rest ih =>
    cases it with
    | stage s =>
      have hrest : ∀ d ∈ varDims rest, (dimLabels d).length = d.values.length := by
        intro d hd; exact h d (by simpa [varDims, List.filterMap_cons] using hd)
      simp only [expandItems, itemLabels, List.map_map]
      exact ih hrest
    | variants d =>
      have hd : (dimLabels d).length = d.values.length :=
        h d (by simp [varDims, List.filterMap_cons])
      have hrest : ∀ e ∈ varDims rest, (dimLabels e).length = e.values.length := by
        intro e he
        refine h e ?_
        simp only [varDims, List.filterMap_cons]
        exact List.mem_cons_of_mem _ he
      simp only [expandItems, itemLabels, List.map_flatMap, List.map_map]
      rw [show (fun vl : MetaVal × Lbl =>
            (expandItems rest).map
              ((fun pr : List Lbl × List Stage => pr.1) ∘
                fun pr => (vl.2 :: pr.1, d.factory vl.1 :: pr.2)))
          = fun vl : MetaVal × Lbl =>
              ((expandItems rest).map Prod.fst).map (fun ls => vl.2 :: ls) from by
        funext vl
        simp [List.map_map]]
      rw [flatMap_zip_snd d.values (dimLabels d) hd
        (fun b => ((expandItems rest).map Prod.fst).map (fun ls => b :: ls))]
      rw [ih hrest]

theorem varDims_stages_append (ss : List Stage) (rest : List PItem) :
    varDims (ss.map .stage ++ rest) = varDims rest := by
  induction ss with
  | nil => rfl
  | cons s tl ih => simp [varDims, List.filterMap_cons]

theorem itemLabels_stages_append (ss : List Stage) (rest : List PItem) :
    itemLabels (ss.map .stage ++ rest) = itemLabels rest := by
  induction ss with
  | nil => rfl
  | cons s tl ih => simpa [itemLabels] using ih

theorem itemLabels_stages (ss : List Stage) :
    itemLabels (ss.map .stage) = [[]] := by
  induction ss with
  | nil => rfl
  | cons s tl ih => simpa [itemLabels] using ih

theorem length_pairs {α β γ : Type} (l1 : List α) (l2 : List β) (g : α → β → γ) :
    (l1.flatMap fun a => l2.map (g a)).length = l1.length * l2.length := by
  induction l1 with
  | nil => simp
  | cons a rest ih =>
    simp only [List.flatMap_cons, List.length_append, List.length_map,
      List.length_cons, ih]
    ring

theorem nodup_pairs {α : Type} [DecidableEq α] {l1 l2 : List α}
    (h1 : l1.Nodup) (h2 : l2.Nodup) :
    (l1.flatMap fun a => l2.map fun b => [a, b]).Nodup := by
  induction l1 with
  | nil => simp
  | cons a rest ih =>
    rw [List.flatMap_cons]
    rcases List.nodup_cons.mp h1 with ⟨ha, hrest⟩
    refine List.Nodup.append ?_ (ih hrest) ?_
    · refine h2.map ?_
      intro x y hxy
      simpa using hxy
    · intro x hx1 hx2
      rcases List.mem_map.mp hx1 with ⟨b, _, hb⟩
      rcases List.mem_flatMap.mp hx2 with ⟨a2, ha2, hmem⟩
      rcases List.mem_map.mp hmem with ⟨b2, _, hb2⟩
      rw [← hb] at hb2
      have : a2 = a := by simpa using congrArg (fun l => l.headD a) hb2
      rw [this] at ha2
      exact ha ha2

/-- The declared item list of a pipeline carrying exactly two variant
dimensions, with arbitrary concrete stages before, between and after them. -/
def twoDimItems (pres mids posts : List Stage) (d1 d2 : VariantDim) :
    List PItem :=
  pres.map .stage
    ++ .variants d1 :: (mids.map .stage ++ .variants d2 :: posts.map .stage)

theorem itemLabels_twoDim (pres mids posts : List Stage) (d1 d2 : VariantDim) :
    itemLabels (twoDimItems pres mids posts d1 d2)
      = (dimLabels d1).flatMap
          (fun a => (dimLabels d2).map (fun b => [a, b])) := by
  rw [twoDimItems, itemLabels_stages_append]
  simp only [itemLabels]
  rw [itemLabels_stages_append]
  simp only [itemLabels, itemLabels_stages]
  simp only [List.map_singleton, flatMap_single, List.map_map]
  rfl

theorem varDims_twoDim (pres mids posts : List Stage) (d1 d2 : VariantDim) :
    varDims (twoDimItems pres mids posts d1 d2) = [d1, d2] := by
  rw [twoDimItems, varDims_stages_append]
  simp only [varDims, List.filterMap_cons]
  rw [show (List.filterMap
      (fun it => match it with | .variants d => some d | .stage _ => none)
      (mids.map PItem.stage ++ .variants d2 :: posts.map PItem.stage))
      = varDims (mids.map .stage ++ .variants d2 :: posts.map .stage) from rfl]
  rw [varDims_stages_append]
  simp only [varDims, List.filterMap_cons]
  rw [show (List.filterMap
      (fun it => match it with | .variants d => some d | .stage _ => none)
      (posts.map PItem.stage)) = varDims (posts.map .stage) from rfl]
  induction posts with
  | nil => rfl
  | cons s tl ih => simp [varDims, List.filterMap_cons]

/-- C3: a pipeline declaring two variant dimensions of sizes n1 and n2
returns exactly n1 * n2 (parameters, result) pairs, each with a distinct
combination label, produced as the cartesian product of the dimensions'
label lists in declaration order with the first-declared dimension varying
slowest, in exactly that traversal order. -/
theorem claim_c3_variants_cartesian_product (pres mids posts : List Stage)
    (d1 d2 : VariantDim) (nm : String) (en : Bool) (oid : Nat)
    (v : SignalData) (c : Cache)
    (hl1 : (dimLabels d1).length = d1.values.length)
    (hl2 : (dimLabels d2).length = d2.values.length)
    (hn1 : (dimLabels d1).Nodup) (hn2 : (dimLabels d2).Nodup) :
    ∃ rs, ((⟨nm, en, twoDimItems pres mids posts d1 d2, none⟩ : Pipeline).run
            (some (oid, v)) c).ret = .multi rs
      ∧ rs.length = d1.values.length * d2.values.length
      ∧ rs.map Prod.fst
          = (dimLabels d1).flatMap (fun a => (dimLabels d2).map (fun b => [a, b]))
      ∧ (rs.map Prod.fst).Nodup := by
  have hvar : (⟨nm, en, twoDimItems pres mids posts d1 d2, none⟩ :
      Pipeline).hasVariants = true := by
    simp [Pipeline.hasVariants, twoDimItems, List.any_append]
  rw [run_some, runResolved_of_variants _ _ hvar]
  refine ⟨_, rfl, ?_, ?_, ?_⟩
  case _ =>
    have hfst := execCombos_results_fst en
      (expandItems (twoDimItems pres mids posts d1 d2)) (.root oid) v c
    rw [expandItems_map_fst _ (by
        rw [varDims_twoDim]
        intro d hd
        rcases List.mem_cons.mp hd with h | h
        · rw [h]; exact hl1
        · rw [List.mem_singleton.mp h]; exact hl2),
      itemLabels_twoDim] at hfst
    have hlen : ((execCombos en (expandItems (twoDimItems pres mids posts d1 d2))
        (.root oid) v c).results.map Prod.fst).length
        = d1.values.length * d2.values.length := by
      rw [hfst, length_pairs, hl1, hl2]
    rwa [List.length_map] at hlen
  case _ =>
    rw [execCombos_results_fst, expandItems_map_fst _ (by
        rw [varDims_twoDim]
        intro d hd
        rcases List.mem_cons.mp hd with h | h
        · rw [h]; exact hl1
        · rw [List.mem_singleton.mp h]; exact hl2),
      itemLabels_twoDim]
  case _ =>
    rw [execCombos_results_fst, expandItems_map_fst _ (by
        rw [varDims_twoDim]
        intro d hd
        rcases List.mem_cons.mp hd with h | h
        · rw [h]; exact hl1
        · rw [List.mem_singleton.mp h]; exact hl2),
      itemLabels_twoDim]
    exact nodup_pairs hn1 hn2

/-- Concrete two-value and one-value dimensions used by the C3 and C6
witnesses. -/
def dimA : VariantDim :=
  ⟨fun x => ⟨"opA", [("p", x)], fun v => .ok v⟩,
   [.nat 0, .nat 1], some ["a0", "a1"]⟩

/-- A one-value dimension for the witnesses. -/
def dimB : VariantDim :=
  ⟨fun x => ⟨"opB", [("q", x)], fun v => .ok v⟩, [.nat 5], none⟩

/-- Witness for C3: a concrete 2 x 1 cartesian exploration. -/
theorem claim_c3_variants_cartesian_product_witness :
    (dimLabels dimA).length = dimA.values.length
      ∧ (dimLabels dimB).length = dimB.values.length
      ∧ (dimLabels dimA).Nodup ∧ (dimLabels dimB).Nodup
      ∧ ∃ rs, ((⟨"W", true, twoDimItems [] [] [] dimA dimB, none⟩ :
            Pipeline).run (some (0, sig0)) []).ret = .multi rs
          ∧ rs.length = dimA.values.length * dimB.values.length
          ∧ rs.map Prod.fst
              = (dimLabels dimA).flatMap
                  (fun a => (dimLabels dimB).map (fun b => [a, b]))
          ∧ (rs.map Prod.fst).Nodup :=
  ⟨by decide, by decide, by decide, by decide,
   claim_c3_variants_cartesian_product [] [] [] dimA dimB "W" true 0 sig0 []
     (by decide) (by decide) (by decide) (by decide)⟩

theorem map_fst_zip_len {α β : Type} (xs : List α) (ys : List β)
    (h : ys.length = xs.length) : (xs.zip ys).map Prod.fst = xs := by
  induction xs generalizing ys with
  | nil => cases ys with | nil => rfl | cons y ys => simp at h
  | cons x xs ih =>
    cases ys with
    | nil => simp at h
    | cons y ys =>
      simp only [List.zip_cons_cons, List.map_cons]
      rw [ih ys (by simpa using h)]

/-- A pipeline declaring a single variant dimension and nothing else. -/
theorem expandItems_one_dim (d : VariantDim) :
    expandItems [.variants d]
      = (d.values.zip (dimLabels d)).map
          (fun vl => ([vl.2], [d.factory vl.1])) := by
  simp only [expandItems, List.map_cons, List.map_nil]
  exact flatMap_single _ _

/-- When the combinations' fingerprint chains are pairwise disjoint (or
caching is disabled) and none is pre-cached, every combination's result is
exactly its own standalone cache-free execution: combinations are
independent, so a failure in one leaves every sibling's outcome unchanged. -/
theorem execCombos_results_indep (en : Bool)
    (combos : List (List Lbl × List Stage)) (fp : Fingerprint)
    (v : SignalData) (c : Cache)
    (hfresh : en = true →
      ∀ pr ∈ combos, ∀ g ∈ chainFps fp pr.2, cacheGet c g = none)
    (hdisj : en = true →
      (combos.map (fun pr => chainFps fp pr.2)).Pairwise List.Disjoint) :
    (execCombos en combos fp v c).results
      = combos.map (fun pr => (pr.1, (foldTrace pr.2 fp v 0).2)) := by
  induction combos generalizing c with
  | nil => rfl
  | cons hd rest ih =>
    cases hd with
    | mk lbl ss =>
      rw [execCombos_cons, List.map_cons]
      have hres := (@execStages_eq_foldTrace en ss fp v 0 c
        (fun he g hg => hfresh he (lbl, ss) (List.mem_cons_self _ _) g hg)).2
      have hfresh2 : en = true →
          ∀ pr ∈ rest, ∀ g ∈ chainFps fp pr.2,
            cacheGet (execStages en ss fp v 0 c).cache g = none := by
        intro he pr hpr g hg
        have h0 := hfresh he pr (List.mem_cons_of_mem _ hpr) g hg
        have hdj := (List.pairwise_cons.mp (by
            simpa only [List.map_cons] using hdisj he)).1
          (chainFps fp pr.2)
          (List.mem_map_of_mem (fun pr => chainFps fp pr.2) hpr)
        cases hval : cacheGet (execStages en ss fp v 0 c).cache g with
        | none => rfl
        | some w =>
          have hne : cacheGet (execStages en ss fp v 0 c).cache g ≠ none := by
            rw [hval]; exact Option.noConfusion
          rcases execStages_dom_sub hne with h1 | h1
          · exact absurd h0 h1
          · have hsub := (execStages_log_sublist en ss fp v 0 c).subset h1
            exact (hdj hsub hg).elim
      have hdisj2 : en = true →
          (rest.map (fun pr => chainFps fp pr.2)).Pairwise List.Disjoint := by
        intro he
        exact (List.pairwise_cons.mp (by
          simpa only [List.map_cons] using hdisj he)).2
      rw [ih _ hfresh2 hdisj2, hres]

/-- C6: a stage operation that raises during execution (here: the in-source
`MatchedFilter`, which raises when `reference_pulse` is absent from the
metadata) makes `run()` fail with an OperationError naming the stage and its
position, carrying the underlying message unmodified; the remaining stages
of that path are never invoked; and in the branching case every variant
combination's outcome equals its own independent execution, so siblings of a
failing combination are unaffected. -/
theorem claim_c6_operation_error_propagation :
    (∀ (pre post : List Stage) (nm : String) (en : Bool) (oid : Nat)
        (v u : SignalData),
      (foldTrace pre (.root oid) v 0).2 = .ok u →
      mlookup u.metadata "reference_pulse" = none →
      ((mkLinear (pre ++ mfStage nm :: post) en).run (some (oid, v)) []).ret
          = .single (.error (.operationError nm pre.length
              "Reference pulse not found in metadata"))
        ∧ ((mkLinear (pre ++ mfStage nm :: post) en).run (some (oid, v)) []).log
          = chainFps (.root oid) pre
              ++ [stepFp (lastFp (.root oid) pre) (mfStage nm)])
      ∧ (∀ (d : VariantDim) (nm : String) (en : Bool) (oid : Nat)
          (v : SignalData),
        (dimLabels d).length = d.values.length →
        (en = true →
          (d.values.map fun x => stepFp (.root oid) (d.factory x)).Nodup) →
        ((⟨nm, en, [.variants d], none⟩ : Pipeline).run (some (oid, v)) []).ret
          = .multi ((d.values.zip (dimLabels d)).map
              (fun vl => ([vl.2],
                (foldTrace [d.factory vl.1] (.root oid) v 0).2)))) := by
  constructor
  · intro pre post nm en oid v u h1 h2
    rw [run_mkLinear]
    have heq := @execStages_eq_foldTrace en (pre ++ mfStage nm :: post)
      (.root oid) v 0 [] (fun _ g _ => cacheGet_nil g)
    have happ := foldTrace_append (mfStage nm :: post) h1
    have hmf : (mfStage nm).func u
        = .error "Reference pulse not found in metadata" := by
      simp [mfStage, MatchedFilter.process, h2]
    have hstep : foldTrace (mfStage nm :: post) (lastFp (.root oid) pre) u
        (0 + pre.length)
        = ([stepFp (lastFp (.root oid) pre) (mfStage nm)],
           .error (.operationError nm pre.length
             "Reference pulse not found in metadata")) := by
      simp only [foldTrace, hmf, Nat.zero_add]
      rfl
    constructor
    · rw [heq.2, happ]
      simp only [hstep]
    · rw [heq.1, happ]
      simp only [hstep]
  · intro d nm en oid v hlen hnd
    have hvar : ((⟨nm, en, [.variants d], none⟩ : Pipeline)).hasVariants = true := rfl
    rw [run_some, runResolved_of_variants _ _ hvar]
    simp only []
    rw [expandItems_one_dim]
    rw [execCombos_results_indep en _ (.root oid) v []
      (fun _ pr _ g _ => cacheGet_nil g)
      (by
        intro he
        have hnd2 := hnd he
        rw [← map_fst_zip_len d.values (dimLabels d) hlen, List.map_map]
          at hnd2
        rw [List.map_map]
        have hpw := (List.pairwise_map.mp hnd2)
        refine List.pairwise_map.mpr (hpw.imp ?_)
        intro a b hab x hx1 hx2
        simp only [Function.comp] at hab hx1 hx2
        have e1 : x = stepFp (.root oid) (d.factory a.1) :=
          List.mem_singleton.mp hx1
        have e2 : x = stepFp (.root oid) (d.factory b.1) :=
          List.mem_singleton.mp hx2
        exact hab (by rw [← e1, e2]))]
    rw [List.map_map]
    rfl

/-- Witness for C6: the `MatchedFilter` stage fails on a metadata-free
input, and a concrete two-combination variant run where both combinations
execute independently. -/
theorem claim_c6_operation_error_propagation_witness :
    (foldTrace [] (.root 0) sig0 0).2 = .ok sig0
      ∧ mlookup sig0.metadata "reference_pulse" = none
      ∧ ((mkLinear ([] ++ mfStage "MF" :: []) true).run (some (0, sig0)) []).ret
          = .single (.error (.operationError "MF" 0
              "Reference pulse not found in metadata"))
      ∧ ((mkLinear ([] ++ mfStage "MF" :: []) true).run (some (0, sig0)) []).log
          = chainFps (.root 0) [] ++ [stepFp (lastFp (.root 0) []) (mfStage "MF")]
      ∧ (dimLabels dimA).length = dimA.values.length
      ∧ ((⟨"W", true, [.variants dimA], none⟩ : Pipeline).run
            (some (0, sig0)) []).ret
          = .multi ((dimA.values.zip (dimLabels dimA)).map
              (fun vl => ([vl.2],
                (foldTrace [dimA.factory vl.1] (.root 0) sig0 0).2))) := by
  have h1 := claim_c6_operation_error_propagation.1 [] [] "MF" true 0 sig0 sig0
    rfl rfl
  have h2 := claim_c6_operation_error_propagation.2 dimA "W" true 0 sig0
    (by decide) (fun _ => by decide)
  exact ⟨rfl, rfl, h1.1, h1.2, by decide, h2⟩

theorem take_append_len {α : Type} (l1 l2 : List α) :
    (l1 ++ l2).take l1.length = l1 := by
  induction l1 with
  | nil => rfl
  | cons x rest ih => simp only [List.cons_append, List.length_cons,
      List.take_succ_cons, ih]

/-- C8: the processing blocks present in the sources construct a *new*
Signal Value (the returned reference is a fresh index past the end of the
store) with the metadata copied rather than mutated in place, so the input
object and every upstream value held in the store — including cached
values — are left unchanged. -/
theorem claim_c8_stages_never_mutate (st : List SignalData) (i : Nat) :
    (∀ st2 j, MatchedFilter.processS st i = .ok (st2, j) →
      st2.take st.length = st ∧ j = st.length ∧ st.length < st2.length)
      ∧ (∀ st2 j, PulseStacker.processS st i = .ok (st2, j) →
        st2.take st.length = st ∧ j = st.length ∧ st.length < st2.length) := by
  constructor
  · intro st2 j h
    simp only [MatchedFilter.processS] at h
    split at h
    · exact absurd h (by simp)
    · split at h
      · exact absurd h (by simp)
      · simp only [Except.ok.injEq, Prod.mk.injEq] at h
        rcases h with ⟨h1, h2⟩
        subst h1; subst h2
        refine ⟨take_append_len st _, rfl, ?_⟩
        simp
  · intro st2 j h
    simp only [PulseStacker.processS] at h
    split at h
    · exact absurd h (by simp)
    · split at h
      · exact absurd h (by simp)
      · simp only [Except.ok.injEq, Prod.mk.injEq] at h
        rcases h with ⟨h1, h2⟩
        subst h1; subst h2
        refine ⟨take_append_len st _, rfl, ?_⟩
        simp

/-- The store and fresh index `MatchedFilter.processS` produces on the
witness input. -/
def mfOutW : List SignalData × Nat :=
  match MatchedFilter.processS [sigRef] 0 with
  | .ok o => o
  | .error _ => ([], 0)

/-- The store and fresh index `PulseStacker.processS` produces on the
witness input. -/
def psOutW : List SignalData × Nat :=
  match PulseStacker.processS [sig0] 0 with
  | .ok o => o
  | .error _ => ([], 0)

/-- Witness for C8: both blocks run on concrete one-object stores. -/
theorem claim_c8_stages_never_mutate_witness :
    MatchedFilter.processS [sigRef] 0 = .ok (mfOutW.1, mfOutW.2)
      ∧ (mfOutW.1.take 1 = [sigRef] ∧ mfOutW.2 = 1 ∧ 1 < mfOutW.1.length)
      ∧ PulseStacker.processS [sig0] 0 = .ok (psOutW.1, psOutW.2)
      ∧ (psOutW.1.take 1 = [sig0] ∧ psOutW.2 = 1 ∧ 1 < psOutW.1.length) :=
  ⟨rfl,
   (claim_c8_stages_never_mutate [sigRef] 0).1 mfOutW.1 mfOutW.2 rfl,
   rfl,
   (claim_c8_stages_never_mutate [sig0] 0).2 psOutW.1 psOutW.2 rfl⟩

/-- C9: every chain operation — `add`, `map`, `tap`, `transform`,
`input_data`, `variants` — returns the very pipeline reference it was
invoked on (Python `return self`), enabling fluent chaining, while `run`
returns run results and leaves the pipeline store untouched (it does not
return the pipeline). -/
theorem claim_c9_chain_ops_return_self (st : List Pipeline) (r : Nat)
    (s : Stage) (nm : String) (arrFn : SigArray → SigArray)
    (input : Nat × SignalData) (d : VariantDim)
    (root : Option (Nat × SignalData)) (c : Cache) :
    (addM st r s).2 = r ∧ (mapM st r s).2 = r ∧ (tapM st r nm).2 = r
      ∧ (transformM st r nm arrFn).2 = r ∧ (inputDataM st r input).2 = r
      ∧ (variantsM st r d).2 = r ∧ (runM st r root c).1 = st :=
  ⟨rfl, rfl, rfl, rfl, rfl, rfl, rfl⟩

end Sigchain
